import Mathlib

/-!
# Verification of the dolt archive storage engine (`nbs` archive build)

Shallow embedding of the archive build / un-archive code (`archive_build.go`,
package `nbs`): the `padSamples` dictionary-sample padding loop, the
`ChunkRelations` union-find over chunk hashes, the archive writer pipeline
(`writeDataToArchive`, `compressChunksInParallel`,
`convertTableFileToArchive`), the verifier (`verifyAllChunks`), and the
per-container swap loop of `archiveSingleBlockStore` /
`unArchiveSingleBlockStore`.

Chunk hashes are modelled as naturals, chunk payloads as lists of naturals.
External collaborators (the chunk source, the Zstd library, the file system)
are abstracted exactly at the interfaces the Go code consumes.
-/

namespace DoltArchive

/-- Chunk hashes (`hash.Hash`, a fixed 20-byte digest) modelled abstractly. -/
abbrev H := Nat

/-- Raw chunk payload bytes. -/
abbrev Bytes := List Nat

/-! ## `padSamples` (archive_build.go lines 717-725)

The Go loop

```
samples := []*chunks.Chunk{}
for len(samples) < 7 {
    for _, c := range chks {
        samples = append(samples, c)
    }
}
return samples
```

is not structurally terminating (on an empty `chks` it loops forever), so we
model it fuel-indexed: `none` means the loop is still running when the fuel
runs out.  `padSamplesLoop fuel samples chks` runs at most `fuel` passes of
the outer loop starting from accumulator `samples`. -/
def padSamplesLoop {α : Type} : Nat → List α → List α → Option (List α)
  | 0, samples, _ => if 7 ≤ samples.length then some samples else none
  | fuel + 1, samples, chks =>
    if 7 ≤ samples.length then some samples
    else padSamplesLoop fuel (samples ++ chks) chks

/-- Model of `padSamples` with fuel 7, which is enough for every non-empty input
(each pass appends at least one sample and the loop stops at length 7). -/
def padSamples {α : Type} (chks : List α) : Option (List α) :=
  padSamplesLoop 7 [] chks

/-- The `k` wholesale replications of a list, i.e. the flattening of
`List.replicate k chks`. -/
def repList {α : Type} (k : Nat) (chks : List α) : List α :=
  (List.replicate k chks).flatten

/-! ## Verifier (`verifyAllChunks`, archive_build.go lines 597-656) -/

/-- Abstract archive reader interface, exactly the three operations
`verifyAllChunks` consumes: `has`, and `get` which can fail (`err`), return
no data (`nil`), or return bytes. -/
structure AReader where
  hasF : H → Bool
  getF : H → Except Unit (Option Bytes)

/-- The four failure modes of `verifyAllChunks`, in the order the code
checks them per hash. -/
inductive VerifyErr where
  | notFound (h : H)
  | readErr (h : H)
  | nilData (h : H)
  | hashMismatch (h : H)
deriving DecidableEq, Repr

/-- Model of `verifyAllChunks` over the (already shuffled) hash list built
from the original table index.  `hashFn` is the chunk hash function
(`chunks.NewChunk(data).Hash()`). -/
def verifyAllChunks (rd : AReader) (hashFn : Bytes → H) : List H → Except VerifyErr Unit
  | [] => Except.ok ()
  | h :: rest =>
    if rd.hasF h = false then Except.error (VerifyErr.notFound h)
    else
      match rd.getF h with
      | Except.error _ => Except.error (VerifyErr.readErr h)
      | Except.ok none => Except.error (VerifyErr.nilData h)
      | Except.ok (some data) =>
        if hashFn data = h then verifyAllChunks rd hashFn rest
        else Except.error (VerifyErr.hashMismatch h)

/-- The per-hash condition the verifier enforces: the archive has the
chunk, `get` returns actual bytes, and the bytes hash back to the address. -/
def chunkVerifies (rd : AReader) (hashFn : Bytes → H) (h : H) : Prop :=
  rd.hasF h = true ∧ ∃ b, rd.getF h = Except.ok (some b) ∧ hashFn b = h

instance (rd : AReader) (hashFn : Bytes → H) (h : H) :
    Decidable (chunkVerifies rd hashFn h) := by
  unfold chunkVerifies
  cases hg : rd.getF h with
  | error e =>
    exact isFalse (by rintro ⟨-, b, hb, -⟩; simp [hg] at hb)
  | ok o =>
    cases o with
    | none => exact isFalse (by rintro ⟨-, b, hb, -⟩; simp [hg] at hb)
    | some b =>
      exact decidable_of_iff (rd.hasF h = true ∧ hashFn b = h)
        (by constructor
            · rintro ⟨h1, h2⟩; exact ⟨h1, b, by simp [hg], h2⟩
            · rintro ⟨h1, b', hb', h2⟩
              refine ⟨h1, ?_⟩
              simp [hg] at hb'
              subst hb'; exact h2)

/-! ## `ChunkRelations` (archive_build.go lines 865-1030)

Go represents the union-find as `map[hash.Hash]*hash.HashSet`: many keys may
alias one shared mutable set.  We model pointers as allocation ids
(`next` is the next fresh id), `setOf` gives the contents of each allocated
set (as a list, Go's `HashSet` being iterated in an unspecified order),
`ptr` is the map itself and `dom` its key list. -/

/-- Model of `hash.HashSet.Insert`: add a member if absent. -/
def hsInsert (s : List H) (h : H) : List H :=
  if h ∈ s then s else s ++ [h]

structure ChunkRelations where
  next : Nat
  setOf : Nat → List H
  ptr : H → Option Nat
  dom : List H

/-- Model of `NewChunkRelations`: the empty map. -/
def NewChunkRelations : ChunkRelations :=
  { next := 0, setOf := fun _ => [], ptr := fun _ => none, dom := [] }

/-- The freshly allocated merged set of the `Add` merge branch: all of
`a`'s group, then the members of `b`'s group not already present. -/
def mergedOf (cr : ChunkRelations) (pa pb : Nat) : List H :=
  cr.setOf pa ++ (cr.setOf pb).filter (fun h => h ∉ cr.setOf pa)

/-- Model of `ChunkRelations.Add(a, b)`, following the Go branch structure exactly:
fresh pair, insert into `a`'s group, insert into `b`'s group, no-op on the
same group, or merge into a freshly allocated set that every member of both
old groups is repointed to. -/
def ChunkRelations.Add (cr : ChunkRelations) (a b : H) : ChunkRelations :=
  match cr.ptr a, cr.ptr b with
  | none, none =>
    { next := cr.next + 1
      setOf := Function.update cr.setOf cr.next (hsInsert (hsInsert [] a) b)
      ptr := Function.update (Function.update cr.ptr a (some cr.next)) b (some cr.next)
      dom := hsInsert (hsInsert cr.dom a) b }
  | some pa, none =>
    { next := cr.next
      setOf := Function.update cr.setOf pa (hsInsert (cr.setOf pa) b)
      ptr := Function.update cr.ptr b (some pa)
      dom := hsInsert cr.dom b }
  | none, some pb =>
    { next := cr.next
      setOf := Function.update cr.setOf pb (hsInsert (cr.setOf pb) a)
      ptr := Function.update cr.ptr a (some pb)
      dom := hsInsert cr.dom a }
  | some pa, some pb =>
    if pa = pb then cr
    else
      { next := cr.next + 1
        setOf := Function.update cr.setOf cr.next (mergedOf cr pa pb)
        ptr := fun h => if h ∈ mergedOf cr pa pb then some cr.next else cr.ptr h
        dom := cr.dom ++ (mergedOf cr pa pb).filter (fun h => h ∉ cr.dom) }

/-- The list of live set ids: the values of the map, deduplicated by
pointer identity. -/
def ChunkRelations.liveIds (cr : ChunkRelations) : List Nat :=
  (cr.dom.filterMap cr.ptr).dedup

/-- Model of `ChunkRelations.groups()`: every underlying set exactly once,
deduplicated by identity of the set (the allocation id), not by content. -/
def ChunkRelations.groups (cr : ChunkRelations) : List (List H) :=
  cr.liveIds.map cr.setOf

/-- Well-formedness of the alias structure, the invariant the Go code
maintains: every key is a member of the set it points to, the members of any
pointed-to set all point back to that same set (transitive closure), the key
list is exactly the domain of the map, and every pointed-to id was
allocated. -/
structure ChunkRelations.WF (cr : ChunkRelations) : Prop where
  mem : ∀ h p, cr.ptr h = some p → h ∈ cr.setOf p
  closed : ∀ h p, cr.ptr h = some p → ∀ h' ∈ cr.setOf p, cr.ptr h' = some p
  domOk : ∀ h, h ∈ cr.dom ↔ (cr.ptr h).isSome
  fresh : ∀ h p, cr.ptr h = some p → p < cr.next

/-! ## Archive writer pipeline (archive_build.go lines 260-564)

The `archiveWriter` itself lives outside the given sources; we model the
slice of it the pipeline uses: `writeByteSpan` appends a span and returns
its 1-based id, `stageZStdChunk` records an index entry
`(hash, dictSpanId, dataSpanId)`, and `chunkSeen` reports whether a hash is
already staged.  Span payloads are tagged by provenance (default dictionary
blob, group `g`'s dictionary blob, or the compressed body of chunk `h`)
rather than by compressed bytes: the Zstd library is an external
collaborator and the claims depend only on which spans exist. -/

/-- The fields of a `chunkGroup` that `writeDataToArchive` consumes: the
member chunks in score order (`chks`, hashes only) and the two savings
totals computed by `chunkGroup.rebuild` (which can be negative, hence
`Int`). -/
structure CG where
  chks : List H
  savedW : Int
  savedD : Int
deriving DecidableEq, Repr

/-- A chunk group is materialized iff its dictionary out-saves the default
dictionary (`cg.totalBytesSavedWDict > cg.totalBytesSavedDefaultDict`). -/
def CG.materialized (cg : CG) : Prop := cg.savedW > cg.savedD

instance (cg : CG) : Decidable cg.materialized := by
  unfold CG.materialized; infer_instance

inductive SpanW where
  | defDict
  | groupDict (cg : CG)
  | data (h : H)
deriving DecidableEq, Repr

structure AWriter where
  spans : List SpanW
  staged : List (H × Nat × Nat)
deriving DecidableEq, Repr

def AWriter.empty : AWriter := ⟨[], []⟩

/-- Model of `writeByteSpan`: append-only, ids are assigned monotonically from 1. -/
def AWriter.writeByteSpan (aw : AWriter) (w : SpanW) : Nat × AWriter :=
  (aw.spans.length + 1, { aw with spans := aw.spans ++ [w] })

/-- The hashes staged so far. -/
def AWriter.stagedHashes (aw : AWriter) : List H :=
  aw.staged.map (fun e => e.1)

/-- Model of `chunkSeen`: whether the hash already has a staged index entry. -/
def AWriter.chunkSeen (aw : AWriter) (h : H) : Bool :=
  decide (h ∈ aw.stagedHashes)

/-- Model of `stageZStdChunk`: record the index entry. -/
def AWriter.stageZStdChunk (aw : AWriter) (h : H) (dictId dataId : Nat) : AWriter :=
  { aw with staged := aw.staged ++ [(h, dictId, dataId)] }

/-- Per-chunk body of the group materialization loop: fetch the chunk, and
if it is not yet staged, write its compressed body as a span and stage it
against the group's dictionary span; in all cases remove it from the
ungrouped set (`allChunks.Remove`). -/
def groupChunkStep (dictId : Nat) (s : AWriter × List H × Nat) (h : H) :
    AWriter × List H × Nat :=
  if s.1.chunkSeen h then (s.1, s.2.1.erase h, s.2.2)
  else
    let wres := s.1.writeByteSpan (SpanW.data h)
    (wres.2.stageZStdChunk h dictId wres.1, s.2.1.erase h, s.2.2 + 1)

/-- Per-group body of the materialization loop (the dictionary span is
tagged with the group it belongs to): an abandoned group writes nothing and
removes nothing. -/
def groupStep (s : AWriter × List H × Nat) (cg : CG) :
    AWriter × List H × Nat :=
  if cg.savedW > cg.savedD then
    let wres := s.1.writeByteSpan (SpanW.groupDict cg)
    cg.chks.foldl (groupChunkStep wres.1) (wres.2, s.2.1, s.2.2)
  else s

/-- The drain writer's action for one arriving compressed chunk: assign the
next span id and stage the chunk against the default dictionary span. -/
def parallelStep (defaultSpanId : Nat) (aw : AWriter) (h : H) : AWriter :=
  let wres := aw.writeByteSpan (SpanW.data h)
  wres.2.stageZStdChunk h defaultSpanId wres.1

/-- Model of `compressChunksInParallel`, the ungrouped pass.  `order` is the arrival
order of the compressed results at the single drain writer — a scheduler
choice, since the work is distributed by ranging over a Go map and
compressed by 32 concurrent workers.  Each arriving chunk gets a fresh data
span and is staged against the default dictionary span.  The function
returns `len(allChunks)` computed at entry. -/
def compressChunksInParallel (aw : AWriter) (rem : List H) (order : List H)
    (defaultSpanId : Nat) : AWriter × Nat :=
  (order.foldl (parallelStep defaultSpanId) aw, rem.length)

/-- Model of `writeDataToArchive`: materialize the groups in list order, then run the
parallel default-dictionary pass over the remaining ungrouped set.
`sched` picks the arrival order of the parallel pass from the remaining
set.  Returns the writer, the grouped chunk count and the ungrouped chunk
count. -/
def writeDataToArchive (aw : AWriter) (allChunks : List H) (cgList : List CG)
    (defaultSpanId : Nat) (sched : List H → List H) : AWriter × Nat × Nat :=
  let s := cgList.foldl groupStep (aw, allChunks, 0)
  let pres := compressChunksInParallel s.1 s.2.1 (sched s.2.1) defaultSpanId
  (pres.1, s.2.2, pres.2)

/-! ## `convertTableFileToArchive` (archive_build.go lines 260-337) -/

/-- Error kinds of the build, with the sentinel `errNotEnoughChunks`
distinguished (the only error `archiveSingleBlockStore` inspects with
`errors.Is`); everything else is carried opaquely. -/
inductive AErr where
  | notEnoughChunks
  | other (code : Nat)
deriving DecidableEq, Repr

/-- Sampling of `gatherAllChunks`: the first `min(idx.chunkCount(), maxSamples)`
index entries, in index order, duplicates included (a table index can list
the same chunk twice). -/
def gatherSamples (idx : List H) : List H :=
  idx.take (min idx.length 1000)

/-- Descending insertion of a group by `totalBytesSavedWDict`. -/
def insertCGDesc (cg : CG) : List CG → List CG
  | [] => [cg]
  | c :: cs => if cg.savedW > c.savedW then cg :: c :: cs else c :: insertCGDesc cg cs

/-- The `sort.Slice(cgList, ...)` descending sort on
`totalBytesSavedWDict` (Go's sort is unstable, so any order among ties is a
faithful refinement). -/
def sortCGDesc : List CG → List CG
  | [] => []
  | c :: cs => insertCGDesc c (sortCGDesc cs)

/-- Modelled from the spec: the archive's self-address.  The Go
`archiveWriter.writeFooter`/`getName` (not among the given sources) computes
"a cryptographic digest over the index region, metadata region, and the
fixed prefix of the footer"; we model the digest injectively as the digested
content itself: the staged chunk index, the span table, and the metadata
(writer version is a constant and is omitted; `convertedAt` timestamp `t`
and the origin table file are kept). -/
structure ArchiveName where
  idxRegion : List (H × Nat × Nat)
  spanRegion : List SpanW
  convertedAt : Nat
  origin : H
deriving DecidableEq, Repr

/-- Models `indexFinalize` plus `getName`: the name the archive ends up with, given
the clock value `t` used for the `convertedAt` metadata field. -/
def getName (aw : AWriter) (t : Nat) (origin : H) : ArchiveName :=
  { idxRegion := aw.staged, spanRegion := aw.spans, convertedAt := t, origin := origin }

/-- Model of `convertTableFileToArchive`: gather samples, fail with
`errNotEnoughChunks` when fewer than `minSamples = 25` samples were
gathered, otherwise write the default dictionary span, sort the groups by
descending savings, run `writeDataToArchive`, and report the duplicate
count diagnostic when the staged total differs from `idx.chunkCount()`.
Returns `(name, chunkCount, dupDiagnostic)`. -/
def convertTableFileToArchive (idx : List H) (cgList : List CG)
    (sched : List H → List H) (t : Nat) (origin : H) :
    Except AErr (ArchiveName × Nat × Option Nat) :=
  let defaultSamples := gatherSamples idx
  if 25 ≤ defaultSamples.length then
    let wres := AWriter.empty.writeByteSpan SpanW.defDict
    let cgSorted := sortCGDesc cgList
    let allChunks := idx.dedup
    let res := writeDataToArchive wres.2 allChunks cgSorted wres.1 sched
    let chunkCount := res.2.1 + res.2.2
    let dupes : Option Nat :=
      if chunkCount ≠ idx.length then some (idx.length - chunkCount) else none
    Except.ok (getName res.1 t origin, chunkCount, dupes)
  else Except.error AErr.notEnoughChunks

/-! ## Manifest swap loops (archive_build.go lines 64-148 and 167-258) -/

/-- A manifest table spec `(container_address, chunk_count)`. -/
structure TableSpec where
  name : H
  chunkCount : Nat
deriving DecidableEq, Repr

/-- The new spec list built by the archive swap loop: each spec whose name
is the archived table file is replaced by the new archive's spec, all
others are appended unchanged. -/
def newSpecsArchive (specs : List TableSpec) (tf : H) (archiveName : H)
    (chkCnt : Nat) : List TableSpec :=
  specs.foldl
    (fun acc spec =>
      if tf = spec.name then acc ++ [⟨archiveName, chkCnt⟩] else acc ++ [spec])
    []

/-- The new spec list built by the un-archive swap loop (same shape: the
archive's spec is replaced by the new classic table file's spec). -/
def newSpecsUnarchive (specs : List TableSpec) (id : H) (newTF : H)
    (chkCnt : Nat) : List TableSpec :=
  specs.foldl
    (fun acc spec =>
      if id = spec.name then acc ++ [⟨newTF, chkCnt⟩] else acc ++ [spec])
    []

/-- Progress / side-effect events of one archival step, in emission order.
`swap` is the (sole) manifest mutation `blockStore.swapTables`. -/
inductive AEv where
  | archivingMsg (tf : H)
  | skipMsg (tf : H)
  | statFailMsg
  | archivedMsg (name : H)
  | swap (specs : List TableSpec)
  | purgeFailMsg
deriving DecidableEq, Repr

/-- The collaborators `archiveSingleBlockStore` consults per table file,
abstracted at their interfaces: journal detection, archive detection
(`cs.(archiveChunkSource)`), the conversion outcome, the `os.Stat` of the
written archive, the verifier outcome, the `swapTables` CAS outcome, and
whether purging the old file succeeds. -/
structure ArcEnv where
  isJournal : H → Bool
  isArchive : H → Bool
  convert : H → Except AErr (H × Nat)
  statSize : H → Except AErr Nat
  verify : H → Except AErr Unit
  swapRes : List TableSpec → Except AErr Unit
  purgeOk : H → Bool
  purge : Bool

/-- The body of `archiveSingleBlockStore`'s loop for one table file `tf`:
skip journal and already-archived sources; on `errNotEnoughChunks` emit the
skip diagnostic and continue without error; otherwise stat, verify, build
the new specs, swap, and optionally purge.  Returns the resulting manifest
(or the propagated error) together with the emitted events. -/
def archiveStep (env : ArcEnv) (specs : List TableSpec) (tf : H) :
    Except AErr (List TableSpec) × List AEv :=
  if env.isJournal tf then (Except.ok specs, [])
  else if env.isArchive tf then (Except.ok specs, [])
  else
    match env.convert tf with
    | Except.error e =>
      if e = AErr.notEnoughChunks then
        (Except.ok specs, [AEv.archivingMsg tf, AEv.skipMsg tf])
      else (Except.error e, [AEv.archivingMsg tf])
    | Except.ok (archiveName, chkCnt) =>
      match env.statSize tf with
      | Except.error e => (Except.error e, [AEv.archivingMsg tf, AEv.statFailMsg])
      | Except.ok _ =>
        match env.verify tf with
        | Except.error e => (Except.error e, [AEv.archivingMsg tf])
        | Except.ok _ =>
          let ns := newSpecsArchive specs tf archiveName chkCnt
          match env.swapRes ns with
          | Except.error e =>
            (Except.error e, [AEv.archivingMsg tf, AEv.archivedMsg archiveName])
          | Except.ok _ =>
            let purgeEvs :=
              if env.purge ∧ tf ∈ specs.map (fun s => s.name) ∧ env.purgeOk tf = false
              then [AEv.purgeFailMsg] else []
            (Except.ok ns,
              [AEv.archivingMsg tf, AEv.archivedMsg archiveName, AEv.swap ns] ++ purgeEvs)

/-- Loop of `archiveSingleBlockStore` over the upstream table files: thread
the manifest through the steps, stop at the first propagated error. -/
def archiveLoop (env : ArcEnv) (specs : List TableSpec) :
    List H → Except AErr (List TableSpec) × List AEv
  | [] => (Except.ok specs, [])
  | tf :: rest =>
    match archiveStep env specs tf with
    | (Except.error e, evs) => (Except.error e, evs)
    | (Except.ok specs', evs) =>
      let r := archiveLoop env specs' rest
      (r.1, evs ++ r.2)

/-! ## Theorems -/

/-! ### `padSamples` -/

theorem repList_succ {α : Type} (k : Nat) (chks : List α) :
    repList (k + 1) chks = chks ++ repList k chks := by
  simp [repList, List.replicate_succ]

theorem repList_length {α : Type} (k : Nat) (chks : List α) :
    (repList k chks).length = k * chks.length := by
  induction k with
  | zero => simp [repList]
  | succ k ih => simp [repList_succ, ih, Nat.succ_mul]; ring

theorem repList_count {α : Type} [DecidableEq α] (k : Nat) (chks : List α) (c : α) :
    (repList k chks).count c = k * chks.count c := by
  induction k with
  | zero => simp [repList]
  | succ k ih => simp [repList_succ, ih, Nat.succ_mul]; ring

/-- Whatever the fuel, the padding loop either diverges or returns the
accumulator extended by some number of wholesale replications of the whole
input list, and only once the length has reached 7. -/
theorem padSamplesLoop_shape {α : Type} :
    ∀ (fuel : Nat) (samples chks : List α),
      padSamplesLoop fuel samples chks = none ∨
      ∃ j, padSamplesLoop fuel samples chks = some (samples ++ repList j chks) ∧
        7 ≤ (samples ++ repList j chks).length := by
  intro fuel
  induction fuel with
  | zero =>
    intro samples chks
    by_cases h : 7 ≤ samples.length
    · right
      exact ⟨0, by simp [padSamplesLoop, h, repList], by simpa [repList] using h⟩
    · left; simp [padSamplesLoop, h]
  | succ fuel ih =>
    intro samples chks
    by_cases h : 7 ≤ samples.length
    · right
      exact ⟨0, by simp [padSamplesLoop, h, repList], by simpa [repList] using h⟩
    · rcases ih (samples ++ chks) chks with hnone | ⟨j, hj, hlen⟩
      · left; simp [padSamplesLoop, h, hnone]
      · right
        refine ⟨j + 1, ?_, ?_⟩
        · simpa [padSamplesLoop, h, repList_succ, List.append_assoc] using hj
        · simpa [repList_succ, List.append_assoc] using hlen

/-- Enough fuel makes the loop terminate: each pass appends the whole input
list, so `fuel` passes reach length `samples.length + fuel * chks.length`. -/
theorem padSamplesLoop_total {α : Type} :
    ∀ (fuel : Nat) (samples chks : List α),
      7 ≤ samples.length + fuel * chks.length →
      (padSamplesLoop fuel samples chks).isSome := by
  intro fuel
  induction fuel with
  | zero =>
    intro samples chks hlen
    simp only [Nat.zero_mul, Nat.add_zero] at hlen
    simp [padSamplesLoop, hlen]
  | succ fuel ih =>
    intro samples chks hlen
    by_cases h : 7 ≤ samples.length
    · simp [padSamplesLoop, h]
    · have step : 7 ≤ (samples ++ chks).length + fuel * chks.length := by
        have : (fuel + 1) * chks.length = fuel * chks.length + chks.length := by
          ring
        simp only [List.length_append]
        omega
      have := ih (samples ++ chks) chks step
      simpa [padSamplesLoop, h] using this

/-- C7: for a non-empty input, `padSamples` returns the input replicated
wholesale `k` times: length at least 7, every input chunk occurring `k`
times its input multiplicity (no chunk repeated more often than another),
and an input of length at least 7 is returned unchanged. -/
theorem padSamples_equal_replication {α : Type} [DecidableEq α]
    (chks : List α) (hne : chks ≠ []) :
    ∃ k, 0 < k ∧ padSamples chks = some (repList k chks) ∧
      7 ≤ (repList k chks).length ∧
      (∀ c, (repList k chks).count c = k * chks.count c) ∧
      (7 ≤ chks.length → padSamples chks = some chks) := by
  have hpos : 0 < chks.length := List.length_pos.mpr hne
  have htot : (padSamples chks).isSome := by
    apply padSamplesLoop_total
    simp only [List.length_nil, Nat.zero_add]
    omega
  rcases padSamplesLoop_shape 7 ([] : List α) chks with hnone | ⟨j, hj, hlen⟩
  · rw [padSamples] at htot; rw [hnone] at htot; simp at htot
  · have hj' : padSamples chks = some (repList j chks) := by
      simpa [padSamples] using hj
    have hlen' : 7 ≤ (repList j chks).length := by simpa using hlen
    have hjpos : 0 < j := by
      rcases Nat.eq_zero_or_pos j with h0 | h
      · rw [h0] at hlen'; simp [repList] at hlen'
      · exact h
    refine ⟨j, hjpos, hj', hlen', fun c => repList_count j chks c, ?_⟩
    intro h7
    have h1 : padSamplesLoop 7 ([] : List α) chks
        = padSamplesLoop 6 ([] ++ chks) chks := by
      simp [padSamplesLoop]
    have h2 : padSamplesLoop 6 chks chks = some chks := by
      simp [padSamplesLoop, h7]
    simp only [padSamples, h1, List.nil_append, h2]

/-- Closed instance of `padSamples_equal_replication` at a two-element
input. -/
theorem padSamples_equal_replication_witness :
    ∃ k, 0 < k ∧ padSamples [10, 20] = some (repList k [10, 20]) ∧
      7 ≤ (repList k [10, 20]).length ∧
      (∀ c, (repList k [10, 20]).count c = k * ([10, 20] : List Nat).count c) ∧
      (7 ≤ ([10, 20] : List Nat).length → padSamples [10, 20] = some [10, 20]) :=
  padSamples_equal_replication [10, 20] (by decide)

/-- C10: with any positive amount of fuel the padding loop terminates on a
non-empty chunk list, but from any accumulator shorter than 7 samples it
diverges on the empty chunk list — no fuel bound suffices, modelling the
non-terminating Go loop.  Callers (`chunkGroup.rebuild`) must therefore
supply at least one resolvable chunk. -/
theorem padSamples_termination {α : Type} :
    (∀ chks : List α, chks ≠ [] → (padSamples chks).isSome) ∧
    (∀ (fuel : Nat) (samples : List α), samples.length < 7 →
      padSamplesLoop fuel samples ([] : List α) = none) := by
  constructor
  · intro chks hne
    have hpos : 0 < chks.length := List.length_pos.mpr hne
    apply padSamplesLoop_total
    simp only [List.length_nil, Nat.zero_add]
    omega
  · intro fuel
    induction fuel with
    | zero =>
      intro samples hlt
      simp [padSamplesLoop, Nat.not_le.mpr hlt]
    | succ fuel ih =>
      intro samples hlt
      have := ih samples hlt
      simp only [padSamplesLoop, Nat.not_le.mpr hlt, if_false]
      simpa using this

/-- Closed instance of `padSamples_termination`: terminates on `[3]`,
diverges from the empty accumulator with the empty input. -/
theorem padSamples_termination_witness :
    (padSamples [3]).isSome ∧ padSamplesLoop 5 ([] : List Nat) [] = none :=
  ⟨(padSamples_termination (α := Nat)).1 [3] (by decide),
   (padSamples_termination (α := Nat)).2 5 [] (by decide)⟩

/-! ### Verifier -/

theorem verifyAllChunks_ok_iff (rd : AReader) (hashFn : Bytes → H) :
    ∀ hl : List H, verifyAllChunks rd hashFn hl = Except.ok () ↔
      ∀ h ∈ hl, chunkVerifies rd hashFn h := by
  intro hl
  induction hl with
  | nil => simp [verifyAllChunks]
  | cons h rest ih =>
    simp only [verifyAllChunks, List.forall_mem_cons]
    cases hh : rd.hasF h with
    | false =>
      simp only [hh, if_pos rfl]
      constructor
      · intro he; cases he
      · rintro ⟨⟨h1, -⟩, -⟩; cases hh.symm.trans h1
    | true =>
      rw [if_neg (by decide : ¬ (true = false))]
      cases hg : rd.getF h with
      | error e =>
        constructor
        · intro he; cases he
        · rintro ⟨⟨-, b, hb, -⟩, -⟩; rw [hg] at hb; cases hb
      | ok o =>
        cases o with
        | none =>
          constructor
          · intro he; cases he
          · rintro ⟨⟨-, b, hb, -⟩, -⟩; rw [hg] at hb; cases hb
        | some data =>
          dsimp only
          by_cases hf : hashFn data = h
          · rw [if_pos hf, ih]
            constructor
            · intro hrest
              exact ⟨⟨hh, data, hg, hf⟩, hrest⟩
            · rintro ⟨-, hrest⟩; exact hrest
          · rw [if_neg hf]
            constructor
            · intro he; cases he
            · rintro ⟨⟨-, b, hb, hfb⟩, -⟩
              rw [hg] at hb
              cases hb
              exact absurd hfb hf

/-- C1: the verifier succeeds exactly when every hash of the original index
is present in the archive, readable as non-nil bytes, and those bytes hash
back to the address — and its verdict is invariant under the shuffle of the
hash list, so it checks precisely these three conditions for every hash of
the original index and errors on any violation. -/
theorem verifyAllChunks_roundtrip (rd : AReader) (hashFn : Bytes → H)
    (idxHashes : List H) :
    (verifyAllChunks rd hashFn idxHashes = Except.ok () ↔
      ∀ h ∈ idxHashes, rd.hasF h = true ∧
        ∃ b, rd.getF h = Except.ok (some b) ∧ hashFn b = h) ∧
    (∀ shuffled : List H, shuffled.Perm idxHashes →
      (verifyAllChunks rd hashFn shuffled = Except.ok () ↔
        verifyAllChunks rd hashFn idxHashes = Except.ok ())) := by
  constructor
  · exact verifyAllChunks_ok_iff rd hashFn idxHashes
  · intro shuffled hperm
    rw [verifyAllChunks_ok_iff, verifyAllChunks_ok_iff]
    constructor
    · intro hall h hmem; exact hall h (hperm.mem_iff.mpr hmem)
    · intro hall h hmem; exact hall h (hperm.mem_iff.mp hmem)

/-- Closed instance of `verifyAllChunks_roundtrip` over a two-chunk archive
that stores each chunk as its own singleton byte list, with the shuffle
hypothesis discharged at a concrete permutation. -/
theorem verifyAllChunks_roundtrip_witness :
    (verifyAllChunks ⟨fun _ => true, fun h => Except.ok (some [h])⟩
        (fun b => b.headD 0) [1, 2] = Except.ok () ↔
      ∀ h ∈ ([1, 2] : List H),
        (⟨fun _ => true, fun h => Except.ok (some [h])⟩ : AReader).hasF h = true ∧
        ∃ b, (⟨fun _ => true, fun h => Except.ok (some [h])⟩ : AReader).getF h
            = Except.ok (some b) ∧ (fun b => List.headD b 0) b = h) ∧
    (verifyAllChunks ⟨fun _ => true, fun h => Except.ok (some [h])⟩
        (fun b => b.headD 0) [2, 1] = Except.ok () ↔
      verifyAllChunks ⟨fun _ => true, fun h => Except.ok (some [h])⟩
        (fun b => b.headD 0) [1, 2] = Except.ok ()) :=
  ⟨(verifyAllChunks_roundtrip ⟨fun _ => true, fun h => Except.ok (some [h])⟩
      (fun b => b.headD 0) [1, 2]).1,
   (verifyAllChunks_roundtrip ⟨fun _ => true, fun h => Except.ok (some [h])⟩
      (fun b => b.headD 0) [1, 2]).2 [2, 1] (by decide)⟩

/-! ### Manifest swap frame property -/

theorem newSpecsArchive_eq_map (specs : List TableSpec) (tf nm : H) (cnt : Nat) :
    newSpecsArchive specs tf nm cnt
      = specs.map (fun s => if tf = s.name then ⟨nm, cnt⟩ else s) := by
  have key : ∀ (l : List TableSpec) (acc : List TableSpec),
      l.foldl
        (fun acc spec =>
          if tf = spec.name then acc ++ [⟨nm, cnt⟩] else acc ++ [spec]) acc
      = acc ++ l.map (fun s => if tf = s.name then ⟨nm, cnt⟩ else s) := by
    intro l
    induction l with
    | nil => intro acc; simp
    | cons s rest ih =>
      intro acc
      rw [List.map_cons, List.foldl_cons]
      by_cases hs : tf = s.name
      · rw [if_pos hs, ih, if_pos hs]; simp
      · rw [if_neg hs, ih, if_neg hs]; simp
  simpa using key specs []

theorem newSpecsUnarchive_eq_newSpecsArchive :
    newSpecsUnarchive = newSpecsArchive := rfl

/-- C8: replacing the spec of the converted container: the new spec list
has the same length, carries `(new_container_address, new_chunk_count)` at
the converted container's position, and preserves every other spec
unchanged in its original position — and the un-archive loop builds its new
spec list by the very same function. -/
theorem swapTables_frame (specs : List TableSpec) (tf nm : H) (cnt : Nat)
    (i : Nat) (hi : i < specs.length)
    (hnodup : (specs.map TableSpec.name).Nodup)
    (hname : (specs.get ⟨i, hi⟩).name = tf) :
    (newSpecsArchive specs tf nm cnt).length = specs.length ∧
    newSpecsUnarchive specs tf nm cnt = newSpecsArchive specs tf nm cnt ∧
    (newSpecsArchive specs tf nm cnt)[i]? = some ⟨nm, cnt⟩ ∧
    (∀ j, j ≠ i → (newSpecsArchive specs tf nm cnt)[j]? = specs[j]?) := by
  refine ⟨by simp [newSpecsArchive_eq_map], rfl, ?_, ?_⟩
  · rw [newSpecsArchive_eq_map, List.getElem?_map, List.getElem?_eq_getElem hi]
    have htf : tf = specs[i].name := by
      simpa [List.get_eq_getElem] using hname.symm
    simp [htf]
  · intro j hj
    rw [newSpecsArchive_eq_map, List.getElem?_map]
    by_cases hjl : j < specs.length
    · rw [List.getElem?_eq_getElem hjl]
      have hne : ¬ tf = specs[j].name := by
        intro heq
        have h1 : (specs.map TableSpec.name).get ⟨i, by simpa using hi⟩ = tf := by
          simpa [List.get_eq_getElem] using hname
        have h2 : (specs.map TableSpec.name).get ⟨j, by simpa using hjl⟩ = tf := by
          simpa [List.get_eq_getElem] using heq.symm
        have hfin := hnodup.get_inj_iff.mp (h1.trans h2.symm)
        injection hfin with hij
        exact hj hij.symm
      simp [hne]
    · rw [List.getElem?_eq_none (Nat.le_of_not_lt hjl)]
      rfl

/-- Closed instance of `swapTables_frame` on a three-entry manifest,
replacing the middle entry. -/
theorem swapTables_frame_witness :
    (newSpecsArchive [⟨1, 10⟩, ⟨2, 20⟩, ⟨3, 30⟩] 2 7 19).length
        = ([⟨1, 10⟩, ⟨2, 20⟩, ⟨3, 30⟩] : List TableSpec).length ∧
    newSpecsUnarchive [⟨1, 10⟩, ⟨2, 20⟩, ⟨3, 30⟩] 2 7 19
        = newSpecsArchive [⟨1, 10⟩, ⟨2, 20⟩, ⟨3, 30⟩] 2 7 19 ∧
    (newSpecsArchive [⟨1, 10⟩, ⟨2, 20⟩, ⟨3, 30⟩] 2 7 19)[1]? = some ⟨7, 19⟩ ∧
    (∀ j, j ≠ 1 →
      (newSpecsArchive [⟨1, 10⟩, ⟨2, 20⟩, ⟨3, 30⟩] 2 7 19)[j]?
        = ([⟨1, 10⟩, ⟨2, 20⟩, ⟨3, 30⟩] : List TableSpec)[j]?) :=
  swapTables_frame [⟨1, 10⟩, ⟨2, 20⟩, ⟨3, 30⟩] 2 7 19 1 (by decide)
    (by decide) (by decide)

/-! ### Verification gates the swap -/

theorem archiveLoop_cons_ok (env : ArcEnv) (specs specs' : List TableSpec)
    (tf : H) (rest : List H) (evs : List AEv)
    (hstep : archiveStep env specs tf = (Except.ok specs', evs)) :
    archiveLoop env specs (tf :: rest)
      = ((archiveLoop env specs' rest).1, evs ++ (archiveLoop env specs' rest).2) := by
  conv_lhs => unfold archiveLoop
  rw [hstep]

theorem archiveLoop_cons_err (env : ArcEnv) (specs : List TableSpec)
    (tf : H) (rest : List H) (e : AErr) (evs : List AEv)
    (hstep : archiveStep env specs tf = (Except.error e, evs)) :
    archiveLoop env specs (tf :: rest) = (Except.error e, evs) := by
  conv_lhs => unfold archiveLoop
  rw [hstep]

theorem archiveStep_swap_verify (env : ArcEnv) (specs : List TableSpec) (tf : H)
    (ns : List TableSpec) (hmem : AEv.swap ns ∈ (archiveStep env specs tf).2) :
    env.verify tf = Except.ok () := by
  unfold archiveStep at hmem
  by_cases hj : env.isJournal tf = true
  · rw [if_pos hj] at hmem; simp at hmem
  · rw [if_neg hj] at hmem
    by_cases ha : env.isArchive tf = true
    · rw [if_pos ha] at hmem; simp at hmem
    · rw [if_neg ha] at hmem
      cases hc : env.convert tf with
      | error e =>
        rw [hc] at hmem
        by_cases he : e = AErr.notEnoughChunks
        · simp [he] at hmem
        · simp [he] at hmem
      | ok r =>
        obtain ⟨nm, cnt⟩ := r
        rw [hc] at hmem
        cases hs : env.statSize tf with
        | error e => rw [hs] at hmem; simp at hmem
        | ok sz =>
          rw [hs] at hmem
          cases hv : env.verify tf with
          | error e => rw [hv] at hmem; simp at hmem
          | ok u =>
            cases u
            rfl

theorem archiveStep_verify_fail (env : ArcEnv) (specs : List TableSpec) (tf : H)
    (e : AErr) (nmcnt : H × Nat) (n : Nat)
    (hj : env.isJournal tf = false) (ha : env.isArchive tf = false)
    (hc : env.convert tf = Except.ok nmcnt) (hs : env.statSize tf = Except.ok n)
    (hv : env.verify tf = Except.error e) :
    archiveStep env specs tf = (Except.error e, [AEv.archivingMsg tf]) := by
  obtain ⟨nm, cnt⟩ := nmcnt
  unfold archiveStep
  rw [if_neg (by simp [hj]), if_neg (by simp [ha]), hc, hs, hv]

theorem archiveLoop_swap_verify (env : ArcEnv) :
    ∀ (files : List H) (specs : List TableSpec) (ns : List TableSpec),
      AEv.swap ns ∈ (archiveLoop env specs files).2 →
      ∃ tf ∈ files, env.verify tf = Except.ok () := by
  intro files
  induction files with
  | nil => intro specs ns hmem; simp [archiveLoop] at hmem
  | cons tf rest ih =>
    intro specs ns hmem
    unfold archiveLoop at hmem
    cases hstep : archiveStep env specs tf with
    | mk r evs =>
      cases r with
      | error e =>
        rw [hstep] at hmem
        have : AEv.swap ns ∈ (archiveStep env specs tf).2 := by
          rw [hstep]; exact hmem
        exact ⟨tf, by simp, archiveStep_swap_verify env specs tf ns this⟩
      | ok specs' =>
        rw [hstep] at hmem
        simp only [List.mem_append] at hmem
        rcases hmem with hl | hr
        · have : AEv.swap ns ∈ (archiveStep env specs tf).2 := by
            rw [hstep]; exact hl
          exact ⟨tf, by simp, archiveStep_swap_verify env specs tf ns this⟩
        · obtain ⟨tf', htf', hver⟩ := ih specs' ns hr
          exact ⟨tf', by simp [htf'], hver⟩

/-- C2: `swapTables` (the sole manifest mutation) happens only after the
verifier succeeded on that container — for a single step and across the
whole loop — and a failed verification makes `archiveSingleBlockStore`
return exactly that error, with no swap performed and the manifest
untouched. -/
theorem verification_gates_swap :
    (∀ (env : ArcEnv) (specs : List TableSpec) (tf : H) (ns : List TableSpec),
      AEv.swap ns ∈ (archiveStep env specs tf).2 → env.verify tf = Except.ok ()) ∧
    (∀ (env : ArcEnv) (specs : List TableSpec) (tf : H) (e : AErr)
        (nmcnt : H × Nat) (n : Nat),
      env.isJournal tf = false → env.isArchive tf = false →
      env.convert tf = Except.ok nmcnt → env.statSize tf = Except.ok n →
      env.verify tf = Except.error e →
      archiveStep env specs tf = (Except.error e, [AEv.archivingMsg tf])) ∧
    (∀ (env : ArcEnv) (files : List H) (specs : List TableSpec)
        (ns : List TableSpec),
      AEv.swap ns ∈ (archiveLoop env specs files).2 →
      ∃ tf ∈ files, env.verify tf = Except.ok ()) :=
  ⟨archiveStep_swap_verify,
   fun env specs tf e nmcnt n => archiveStep_verify_fail env specs tf e nmcnt n,
   fun env files specs ns => archiveLoop_swap_verify env files specs ns⟩

/-- Closed instance of `verification_gates_swap`: an environment whose
verifier succeeds does swap (conjuncts 1 and 3 applied to its swap event),
and an environment whose verifier fails propagates exactly the error with
only the initial progress message. -/
theorem verification_gates_swap_witness :
    (⟨fun _ => false, fun _ => false, fun _ => Except.ok (9, 4),
        fun _ => Except.ok 100, fun _ => Except.ok (), fun _ => Except.ok (),
        fun _ => true, false⟩ : ArcEnv).verify 5 = Except.ok () ∧
    archiveStep
        ⟨fun _ => false, fun _ => false, fun _ => Except.ok (9, 4),
          fun _ => Except.ok 100, fun _ => Except.error (AErr.other 3),
          fun _ => Except.ok (), fun _ => true, false⟩ [⟨5, 1⟩] 5
      = (Except.error (AErr.other 3), [AEv.archivingMsg 5]) ∧
    (∃ tf ∈ [5], (⟨fun _ => false, fun _ => false, fun _ => Except.ok (9, 4),
        fun _ => Except.ok 100, fun _ => Except.ok (), fun _ => Except.ok (),
        fun _ => true, false⟩ : ArcEnv).verify tf = Except.ok ()) :=
  ⟨verification_gates_swap.1
      ⟨fun _ => false, fun _ => false, fun _ => Except.ok (9, 4),
        fun _ => Except.ok 100, fun _ => Except.ok (), fun _ => Except.ok (),
        fun _ => true, false⟩ [⟨5, 1⟩] 5 [⟨9, 4⟩] (by decide),
   verification_gates_swap.2.1
      ⟨fun _ => false, fun _ => false, fun _ => Except.ok (9, 4),
        fun _ => Except.ok 100, fun _ => Except.error (AErr.other 3),
        fun _ => Except.ok (), fun _ => true, false⟩ [⟨5, 1⟩] 5 (AErr.other 3)
      (9, 4) 100 rfl rfl rfl rfl rfl,
   verification_gates_swap.2.2
      ⟨fun _ => false, fun _ => false, fun _ => Except.ok (9, 4),
        fun _ => Except.ok 100, fun _ => Except.ok (), fun _ => Except.ok (),
        fun _ => true, false⟩ [5] [⟨5, 1⟩] [⟨9, 4⟩] (by decide)⟩

/-! ### Not-enough-chunks skip -/

/-- The claim as frozen is false on the code: the threshold counts index
entries (duplicates included), not distinct chunks.  An index of 25 entries
that all carry the same chunk has a single distinct chunk — fewer than 25 —
yet conversion does not abort with `errNotEnoughChunks`. -/
theorem notEnoughChunks_distinct_counterexample :
    (List.replicate 25 (0 : H)).dedup.length < 25 ∧
    (convertTableFileToArchive (List.replicate 25 (0 : H)) [] (fun l => l) 0 0).isOk
      = true := by decide

theorem archiveStep_notEnough_skip (env : ArcEnv) (specs : List TableSpec)
    (tf : H) (hj : env.isJournal tf = false) (ha : env.isArchive tf = false)
    (hc : env.convert tf = Except.error AErr.notEnoughChunks) :
    archiveStep env specs tf
      = (Except.ok specs, [AEv.archivingMsg tf, AEv.skipMsg tf]) := by
  unfold archiveStep
  rw [if_neg (by simp [hj]), if_neg (by simp [ha]), hc]
  simp

/-- C3 (amended): conversion aborts with `errNotEnoughChunks` exactly when
the source index lists fewer than 25 chunk entries — duplicates counted,
not distinct chunks; such a container is skipped with the diagnostic
message, the manifest is untouched, no error propagates upward, and the
loop's outcome over the remaining containers is unchanged. -/
theorem notEnoughChunks_skip :
    (∀ (idx : List H) (cgList : List CG) (sched : List H → List H)
        (t : Nat) (origin : H),
      convertTableFileToArchive idx cgList sched t origin
          = Except.error AErr.notEnoughChunks ↔ idx.length < 25) ∧
    (∀ (env : ArcEnv) (specs : List TableSpec) (tf : H),
      env.isJournal tf = false → env.isArchive tf = false →
      env.convert tf = Except.error AErr.notEnoughChunks →
      archiveStep env specs tf
        = (Except.ok specs, [AEv.archivingMsg tf, AEv.skipMsg tf])) ∧
    (∀ (env : ArcEnv) (pre post : List H) (specs : List TableSpec) (tf : H),
      env.isJournal tf = false → env.isArchive tf = false →
      env.convert tf = Except.error AErr.notEnoughChunks →
      (archiveLoop env specs (pre ++ tf :: post)).1
        = (archiveLoop env specs (pre ++ post)).1) := by
  refine ⟨?_, archiveStep_notEnough_skip, ?_⟩
  · intro idx cgList sched t origin
    have hlen : (gatherSamples idx).length = min idx.length 1000 := by
      simp [gatherSamples, List.length_take]
    by_cases hc : 25 ≤ (gatherSamples idx).length
    · simp only [convertTableFileToArchive, if_pos hc]
      constructor
      · intro h; cases h
      · intro h
        rw [hlen] at hc
        omega
    · simp only [convertTableFileToArchive, if_neg hc]
      constructor
      · intro _
        rw [hlen] at hc
        omega
      · intro _; trivial
  · intro env pre
    induction pre with
    | nil =>
      intro post specs tf hj ha hc
      rw [List.nil_append, List.nil_append,
        archiveLoop_cons_ok env specs specs tf post
          [AEv.archivingMsg tf, AEv.skipMsg tf]
          (archiveStep_notEnough_skip env specs tf hj ha hc)]
    | cons p pre ih =>
      intro post specs tf hj ha hc
      rw [List.cons_append, List.cons_append]
      cases hstep : archiveStep env specs p with
      | mk r evs =>
        cases r with
        | error e =>
          rw [archiveLoop_cons_err env specs p (pre ++ tf :: post) e evs hstep,
            archiveLoop_cons_err env specs p (pre ++ post) e evs hstep]
        | ok specs' =>
          rw [archiveLoop_cons_ok env specs specs' p (pre ++ tf :: post) evs hstep,
            archiveLoop_cons_ok env specs specs' p (pre ++ post) evs hstep]
          exact ih post specs' tf hj ha hc

/-- Closed instance of `notEnoughChunks_skip`: a 24-entry index aborts with
the sentinel, the step turns that into a skip diagnostic without error, and
the loop over `[4, tf, 6]` has the same outcome as over `[4, 6]`. -/
theorem notEnoughChunks_skip_witness :
    (convertTableFileToArchive (List.replicate 24 (3 : H)) [] (fun l => l) 0 0
        = Except.error AErr.notEnoughChunks ↔ (List.replicate 24 (3 : H)).length < 25) ∧
    archiveStep
        ⟨fun _ => false, fun _ => false, fun _ => Except.error AErr.notEnoughChunks,
          fun _ => Except.ok 0, fun _ => Except.ok (), fun _ => Except.ok (),
          fun _ => true, false⟩ [⟨5, 1⟩] 5
      = (Except.ok [⟨5, 1⟩], [AEv.archivingMsg 5, AEv.skipMsg 5]) ∧
    (archiveLoop
        ⟨fun _ => false, fun _ => false, fun _ => Except.error AErr.notEnoughChunks,
          fun _ => Except.ok 0, fun _ => Except.ok (), fun _ => Except.ok (),
          fun _ => true, false⟩ [⟨5, 1⟩] ([4] ++ 5 :: [6])).1
      = (archiveLoop
        ⟨fun _ => false, fun _ => false, fun _ => Except.error AErr.notEnoughChunks,
          fun _ => Except.ok 0, fun _ => Except.ok (), fun _ => Except.ok (),
          fun _ => true, false⟩ [⟨5, 1⟩] ([4] ++ [6])).1 :=
  ⟨notEnoughChunks_skip.1 (List.replicate 24 (3 : H)) [] (fun l => l) 0 0,
   notEnoughChunks_skip.2.1
      ⟨fun _ => false, fun _ => false, fun _ => Except.error AErr.notEnoughChunks,
        fun _ => Except.ok 0, fun _ => Except.ok (), fun _ => Except.ok (),
        fun _ => true, false⟩ [⟨5, 1⟩] 5 rfl rfl rfl,
   notEnoughChunks_skip.2.2
      ⟨fun _ => false, fun _ => false, fun _ => Except.error AErr.notEnoughChunks,
        fun _ => Except.ok 0, fun _ => Except.ok (), fun _ => Except.ok (),
        fun _ => true, false⟩ [4] [6] [⟨5, 1⟩] 5 rfl rfl rfl⟩

/-! ### Group budget correctness -/

theorem innerFold_groupDict_mem (dictId : Nat) (cg0 : CG) :
    ∀ (chks : List H) (s : AWriter × List H × Nat),
      (SpanW.groupDict cg0 ∈ (chks.foldl (groupChunkStep dictId) s).1.spans ↔
        SpanW.groupDict cg0 ∈ s.1.spans) := by
  intro chks
  induction chks with
  | nil => intro s; exact Iff.rfl
  | cons h rest ih =>
    intro s
    rw [List.foldl_cons, ih _]
    unfold groupChunkStep
    by_cases hseen : s.1.chunkSeen h
    · rw [if_pos hseen]
    · rw [if_neg hseen]
      simp [AWriter.writeByteSpan, AWriter.stageZStdChunk]

theorem parallelFold_groupDict_mem (defId : Nat) (cg0 : CG) :
    ∀ (order : List H) (aw : AWriter),
      (SpanW.groupDict cg0 ∈ (order.foldl (parallelStep defId) aw).spans ↔
        SpanW.groupDict cg0 ∈ aw.spans) := by
  intro order
  induction order with
  | nil => intro aw; exact Iff.rfl
  | cons h rest ih =>
    intro aw
    rw [List.foldl_cons, ih]
    simp [parallelStep, AWriter.writeByteSpan, AWriter.stageZStdChunk]

theorem groupFold_groupDict_mem (cg0 : CG) :
    ∀ (cgList : List CG) (s : AWriter × List H × Nat),
      (SpanW.groupDict cg0 ∈ (cgList.foldl groupStep s).1.spans ↔
        (SpanW.groupDict cg0 ∈ s.1.spans ∨ (cg0 ∈ cgList ∧ cg0.materialized))) := by
  intro cgList
  induction cgList with
  | nil => intro s; simp
  | cons cg rest ih =>
    intro s
    rw [List.foldl_cons, ih _]
    unfold groupStep
    by_cases hm : cg.savedW > cg.savedD
    · rw [if_pos hm]
      rw [innerFold_groupDict_mem]
      show SpanW.groupDict cg0 ∈ (s.1.writeByteSpan (SpanW.groupDict cg)).2.spans
          ∨ _ ↔ _
      simp only [AWriter.writeByteSpan, List.mem_append, List.mem_cons,
        List.not_mem_nil, or_false, SpanW.groupDict.injEq]
      constructor
      · rintro (⟨hsp | hcg⟩ | ⟨hrest, hmat⟩)
        · exact Or.inl hsp
        · exact Or.inr ⟨Or.inl hcg, hcg ▸ hm⟩
        · exact Or.inr ⟨Or.inr hrest, hmat⟩
      · rintro (hsp | ⟨hcg | hrest, hmat⟩)
        · exact Or.inl (Or.inl hsp)
        · exact Or.inl (Or.inr hcg)
        · exact Or.inr ⟨hrest, hmat⟩
    · rw [if_neg hm]
      constructor
      · rintro (hsp | ⟨hrest, hmat⟩)
        · exact Or.inl hsp
        · exact Or.inr ⟨List.mem_cons_of_mem cg hrest, hmat⟩
      · rintro (hsp | ⟨hmem, hmat⟩)
        · exact Or.inl hsp
        · rcases List.mem_cons.mp hmem with hcg | hrest
          · exact absurd (hcg ▸ hmat) hm
          · exact Or.inr ⟨hrest, hmat⟩

theorem innerFold_untouched (dictId : Nat) (h0 : H) :
    ∀ (chks : List H) (s : AWriter × List H × Nat), h0 ∉ chks →
      ((h0 ∈ (chks.foldl (groupChunkStep dictId) s).2.1 ↔ h0 ∈ s.2.1) ∧
       (∀ d i, (h0, d, i) ∈ (chks.foldl (groupChunkStep dictId) s).1.staged ↔
          (h0, d, i) ∈ s.1.staged)) := by
  intro chks
  induction chks with
  | nil => intro s _; exact ⟨Iff.rfl, fun d i => Iff.rfl⟩
  | cons h rest ih =>
    intro s hnot
    have hne : h0 ≠ h := fun he => hnot (he ▸ List.mem_cons_self h rest)
    have hrest : h0 ∉ rest := fun hr => hnot (List.mem_cons_of_mem h hr)
    rw [List.foldl_cons]
    obtain ⟨hmem, hstaged⟩ := ih (groupChunkStep dictId s h) hrest
    refine ⟨hmem.trans ?_, fun d i => (hstaged d i).trans ?_⟩
    · unfold groupChunkStep
      by_cases hseen : s.1.chunkSeen h
      · rw [if_pos hseen]
        exact List.mem_erase_of_ne hne
      · rw [if_neg hseen]
        exact List.mem_erase_of_ne hne
    · unfold groupChunkStep
      by_cases hseen : s.1.chunkSeen h
      · rw [if_pos hseen]
      · rw [if_neg hseen]
        show (h0, d, i) ∈ _ ++ [(h, dictId, _)] ↔ _
        simp only [List.mem_append, List.mem_singleton, Prod.mk.injEq]
        constructor
        · rintro (hin | ⟨he, -⟩)
          · exact hin
          · exact absurd he hne
        · intro hin; exact Or.inl hin

theorem groupFold_untouched (h0 : H) :
    ∀ (cgList : List CG) (s : AWriter × List H × Nat),
      (∀ cg ∈ cgList, cg.materialized → h0 ∉ cg.chks) →
      ((h0 ∈ (cgList.foldl groupStep s).2.1 ↔ h0 ∈ s.2.1) ∧
       (∀ d i, (h0, d, i) ∈ (cgList.foldl groupStep s).1.staged ↔
          (h0, d, i) ∈ s.1.staged)) := by
  intro cgList
  induction cgList with
  | nil => intro s _; exact ⟨Iff.rfl, fun d i => Iff.rfl⟩
  | cons cg rest ih =>
    intro s hnot
    have hrest : ∀ cg' ∈ rest, cg'.materialized → h0 ∉ cg'.chks :=
      fun cg' hm => hnot cg' (List.mem_cons_of_mem cg hm)
    rw [List.foldl_cons]
    obtain ⟨hmem1, hstaged1⟩ := ih (groupStep s cg) hrest
    refine ⟨hmem1.trans ?_, fun d i => (hstaged1 d i).trans ?_⟩
    · unfold groupStep
      by_cases hm : cg.savedW > cg.savedD
      · rw [if_pos hm]
        have hchks : h0 ∉ cg.chks := hnot cg (List.mem_cons_self cg rest) hm
        exact (innerFold_untouched _ h0 cg.chks _ hchks).1
      · rw [if_neg hm]
    · unfold groupStep
      by_cases hm : cg.savedW > cg.savedD
      · rw [if_pos hm]
        have hchks : h0 ∉ cg.chks := hnot cg (List.mem_cons_self cg rest) hm
        exact (innerFold_untouched _ h0 cg.chks _ hchks).2 d i
      · rw [if_neg hm]

theorem parallelFold_staged_mono (defId : Nat) :
    ∀ (order : List H) (aw : AWriter) (e : H × Nat × Nat),
      e ∈ aw.staged → e ∈ (order.foldl (parallelStep defId) aw).staged := by
  intro order
  induction order with
  | nil => intro aw e he; exact he
  | cons h rest ih =>
    intro aw e he
    rw [List.foldl_cons]
    apply ih
    show e ∈ _ ++ [(h, defId, _)]
    exact List.mem_append_left _ he

theorem parallelFold_staged_sub (defId : Nat) :
    ∀ (order : List H) (aw : AWriter) (x : H) (d i : Nat),
      (x, d, i) ∈ (order.foldl (parallelStep defId) aw).staged →
      (x, d, i) ∈ aw.staged ∨ d = defId := by
  intro order
  induction order with
  | nil => intro aw x d i hx; exact Or.inl hx
  | cons h rest ih =>
    intro aw x d i hx
    rw [List.foldl_cons] at hx
    rcases ih _ x d i hx with hin | hdef
    · show (x, d, i) ∈ aw.staged ∨ d = defId
      have : (x, d, i) ∈ aw.staged ++ [(h, defId, (aw.writeByteSpan (SpanW.data h)).1)] := hin
      rcases List.mem_append.mp this with hl | hr
      · exact Or.inl hl
      · rcases List.mem_singleton.mp hr with he
        exact Or.inr (congrArg (fun p => p.2.1) he)
    · exact Or.inr hdef

theorem parallelFold_staged_mem (defId : Nat) :
    ∀ (order : List H) (aw : AWriter) (x : H), x ∈ order →
      ∃ i, (x, defId, i) ∈ (order.foldl (parallelStep defId) aw).staged := by
  intro order
  induction order with
  | nil => intro aw x hx; exact absurd hx (List.not_mem_nil x)
  | cons h rest ih =>
    intro aw x hx
    rw [List.foldl_cons]
    rcases List.mem_cons.mp hx with hxh | hxr
    · refine ⟨(aw.writeByteSpan (SpanW.data h)).1, ?_⟩
      apply parallelFold_staged_mono
      show (x, defId, _) ∈ _ ++ [(h, defId, _)]
      subst hxh
      exact List.mem_append_right _ (List.mem_singleton.mpr rfl)
    · exact ih _ x hxr

/-- C4: with the archive writer initialized with just the default
dictionary span (span id 1), a group's dictionary span is present in the
output iff `totalBytesSavedWDict > totalBytesSavedDefaultDict`, and every
chunk of an abandoned group (that no materialized group also claims) stays
in the ungrouped set after group materialization and is staged exactly
against the default dictionary span. -/
theorem group_budget_correctness (allChunks : List H) (cgList : List CG)
    (sched : List H → List H) (hsched : ∀ l, (sched l).Perm l) :
    (∀ cg0 : CG,
      SpanW.groupDict cg0 ∈
          (writeDataToArchive ⟨[SpanW.defDict], []⟩ allChunks cgList 1 sched).1.spans
        ↔ (cg0 ∈ cgList ∧ cg0.materialized)) ∧
    (∀ cg0 ∈ cgList, ¬ cg0.materialized → ∀ h0 ∈ cg0.chks, h0 ∈ allChunks →
      (∀ cg' ∈ cgList, cg'.materialized → h0 ∉ cg'.chks) →
      (h0 ∈ (cgList.foldl groupStep (⟨[SpanW.defDict], []⟩, allChunks, 0)).2.1 ∧
       (∃ i, (h0, 1, i) ∈
          (writeDataToArchive ⟨[SpanW.defDict], []⟩ allChunks cgList 1 sched).1.staged) ∧
       (∀ d i, (h0, d, i) ∈
          (writeDataToArchive ⟨[SpanW.defDict], []⟩ allChunks cgList 1 sched).1.staged →
          d = 1))) := by
  have hwd : (writeDataToArchive ⟨[SpanW.defDict], []⟩ allChunks cgList 1 sched).1
      = ((sched (cgList.foldl groupStep (⟨[SpanW.defDict], []⟩, allChunks, 0)).2.1).foldl
          (parallelStep 1)
          (cgList.foldl groupStep (⟨[SpanW.defDict], []⟩, allChunks, 0)).1) := rfl
  constructor
  · intro cg0
    rw [hwd, parallelFold_groupDict_mem, groupFold_groupDict_mem]
    show SpanW.groupDict cg0 ∈ [SpanW.defDict] ∨ _ ↔ _
    simp
  · intro cg0 hcg0 hmat h0 hh0 hall hnotmat
    obtain ⟨hmem, hstaged⟩ :=
      groupFold_untouched h0 cgList (⟨[SpanW.defDict], []⟩, allChunks, 0) hnotmat
    have hrem : h0 ∈ (cgList.foldl groupStep (⟨[SpanW.defDict], []⟩, allChunks, 0)).2.1 :=
      hmem.mpr hall
    refine ⟨hrem, ?_, ?_⟩
    · rw [hwd]
      exact parallelFold_staged_mem 1 _ _ h0 ((hsched _).mem_iff.mpr hrem)
    · intro d i hin
      rw [hwd] at hin
      rcases parallelFold_staged_sub 1 _ _ h0 d i hin with hgp | hdef
      · have : (h0, d, i) ∈ ([] : List (H × Nat × Nat)) := (hstaged d i).mp hgp
        exact absurd this (List.not_mem_nil _)
      · exact hdef

/-- Closed instance of `group_budget_correctness`: one materialized group
`{1, 2}` and one abandoned group `{3}` over chunks `[1, 2, 3, 4]` with the
identity arrival order. -/
theorem group_budget_correctness_witness :
    (∀ cg0 : CG,
      SpanW.groupDict cg0 ∈
          (writeDataToArchive ⟨[SpanW.defDict], []⟩ [1, 2, 3, 4]
            [⟨[1, 2], 10, 5⟩, ⟨[3], 0, 0⟩] 1 (fun l => l)).1.spans
        ↔ (cg0 ∈ [(⟨[1, 2], 10, 5⟩ : CG), ⟨[3], 0, 0⟩] ∧ cg0.materialized)) ∧
    (∀ cg0 ∈ [(⟨[1, 2], 10, 5⟩ : CG), ⟨[3], 0, 0⟩], ¬ cg0.materialized →
      ∀ h0 ∈ cg0.chks, h0 ∈ [1, 2, 3, 4] →
      (∀ cg' ∈ [(⟨[1, 2], 10, 5⟩ : CG), ⟨[3], 0, 0⟩], cg'.materialized →
        h0 ∉ cg'.chks) →
      (h0 ∈ ([(⟨[1, 2], 10, 5⟩ : CG), ⟨[3], 0, 0⟩].foldl groupStep
          (⟨[SpanW.defDict], []⟩, [1, 2, 3, 4], 0)).2.1 ∧
       (∃ i, (h0, 1, i) ∈
          (writeDataToArchive ⟨[SpanW.defDict], []⟩ [1, 2, 3, 4]
            [⟨[1, 2], 10, 5⟩, ⟨[3], 0, 0⟩] 1 (fun l => l)).1.staged) ∧
       (∀ d i, (h0, d, i) ∈
          (writeDataToArchive ⟨[SpanW.defDict], []⟩ [1, 2, 3, 4]
            [⟨[1, 2], 10, 5⟩, ⟨[3], 0, 0⟩] 1 (fun l => l)).1.staged →
          d = 1))) :=
  group_budget_correctness [1, 2, 3, 4] [⟨[1, 2], 10, 5⟩, ⟨[3], 0, 0⟩]
    (fun l => l) (fun l => List.Perm.refl l)

/-! ### Dedup-preserving chunk count -/

theorem chunkSeen_iff (aw : AWriter) (h : H) :
    aw.chunkSeen h = true ↔ h ∈ aw.stagedHashes := by
  simp [AWriter.chunkSeen]

theorem stagedHashes_stage (aw : AWriter) (h : H) (d i : Nat) :
    (aw.stageZStdChunk h d i).stagedHashes = aw.stagedHashes ++ [h] := by
  simp [AWriter.stageZStdChunk, AWriter.stagedHashes]

/-- Invariant of the group materialization phase over a deduplicated base
set: the ungrouped set is exactly the base minus the staged hashes, the
staged hashes are distinct, and staged count plus ungrouped count is the
base count. -/
def GInv (base : List H) (s : AWriter × List H × Nat) : Prop :=
  s.2.1 = base.filter (fun x => decide (x ∉ s.1.stagedHashes)) ∧
  s.1.stagedHashes.Nodup ∧
  s.2.2 + s.2.1.length = base.length

theorem innerFold_inv (dictId : Nat) (base : List H) (hnd : base.Nodup) :
    ∀ (chks : List H) (s : AWriter × List H × Nat),
      (∀ x ∈ chks, x ∈ base) → GInv base s →
      GInv base (chks.foldl (groupChunkStep dictId) s) := by
  intro chks
  induction chks with
  | nil => intro s _ hinv; exact hinv
  | cons h rest ih =>
    intro s hsub hinv
    rw [List.foldl_cons]
    apply ih _ (fun x hx => hsub x (List.mem_cons_of_mem _ hx))
    obtain ⟨hrem, hnodup, hcnt⟩ := hinv
    have hb : h ∈ base := hsub h (List.mem_cons_self _ _)
    unfold groupChunkStep
    by_cases hseen : s.1.chunkSeen h
    · rw [if_pos hseen]
      have hmemstg : h ∈ s.1.stagedHashes := (chunkSeen_iff _ _).mp hseen
      have hnotrem : h ∉ s.2.1 := by
        rw [hrem]
        intro hmem
        have := (List.mem_filter.mp hmem).2
        simp only [decide_eq_true_eq] at this
        exact this hmemstg
      rw [List.erase_of_not_mem hnotrem]
      exact ⟨hrem, hnodup, hcnt⟩
    · rw [if_neg hseen]
      have hnot : h ∉ s.1.stagedHashes :=
        fun hmem => hseen ((chunkSeen_iff _ _).mpr hmem)
      have hinrem : h ∈ s.2.1 := by
        rw [hrem]
        exact List.mem_filter.mpr ⟨hb, by simp [hnot]⟩
      have hstg : ((s.1.writeByteSpan (SpanW.data h)).2.stageZStdChunk h dictId
          (s.1.writeByteSpan (SpanW.data h)).1).stagedHashes
          = s.1.stagedHashes ++ [h] := stagedHashes_stage _ h dictId _
      refine ⟨?_, ?_, ?_⟩
      · show s.2.1.erase h = _
        rw [hstg, hrem]
        rw [(hnd.filter _).erase_eq_filter h, List.filter_filter]
        apply List.filter_congr
        intro x hx
        by_cases h1 : x ∈ s.1.stagedHashes <;> by_cases h2 : x = h <;>
          simp [h1, h2, List.mem_append]
      · show ((s.1.writeByteSpan (SpanW.data h)).2.stageZStdChunk h dictId
          (s.1.writeByteSpan (SpanW.data h)).1).stagedHashes.Nodup
        rw [hstg]
        simp [List.nodup_append, hnodup, hnot]
      · show s.2.2 + 1 + (s.2.1.erase h).length = base.length
        have hpos : 0 < s.2.1.length :=
          List.length_pos.mpr (List.ne_nil_of_mem hinrem)
        rw [List.length_erase_of_mem hinrem]
        omega

theorem groupFold_inv (base : List H) (hnd : base.Nodup) :
    ∀ (cgList : List CG) (s : AWriter × List H × Nat),
      (∀ cg ∈ cgList, cg.materialized → ∀ x ∈ cg.chks, x ∈ base) →
      GInv base s → GInv base (cgList.foldl groupStep s) := by
  intro cgList
  induction cgList with
  | nil => intro s _ hinv; exact hinv
  | cons cg rest ih =>
    intro s hsub hinv
    rw [List.foldl_cons]
    apply ih _ (fun cg' hcg' => hsub cg' (List.mem_cons_of_mem _ hcg'))
    unfold groupStep
    by_cases hm : cg.savedW > cg.savedD
    · rw [if_pos hm]
      exact innerFold_inv _ base hnd cg.chks _
        (hsub cg (List.mem_cons_self _ _) hm) hinv
    · rw [if_neg hm]
      exact hinv

theorem writeData_count (base : List H) (hnd : base.Nodup) (cgList : List CG)
    (defId : Nat) (sched : List H → List H) (aw0 : AWriter)
    (hst : aw0.staged = [])
    (hsub : ∀ cg ∈ cgList, cg.materialized → ∀ x ∈ cg.chks, x ∈ base) :
    (writeDataToArchive aw0 base cgList defId sched).2.1
      + (writeDataToArchive aw0 base cgList defId sched).2.2 = base.length := by
  have hstg0 : aw0.stagedHashes = [] := by simp [AWriter.stagedHashes, hst]
  have hinv0 : GInv base (aw0, base, 0) := by
    refine ⟨?_, ?_, ?_⟩
    · show base = _
      rw [hstg0]
      simp
    · show aw0.stagedHashes.Nodup
      rw [hstg0]; exact List.nodup_nil
    · simp
  have hinv := groupFold_inv base hnd cgList (aw0, base, 0) hsub hinv0
  exact hinv.2.2

theorem mem_insertCGDesc (cg x : CG) :
    ∀ l : List CG, x ∈ insertCGDesc cg l ↔ x = cg ∨ x ∈ l := by
  intro l
  induction l with
  | nil => simp [insertCGDesc]
  | cons c cs ih =>
    unfold insertCGDesc
    by_cases hgt : cg.savedW > c.savedW
    · rw [if_pos hgt]
      simp
    · rw [if_neg hgt]
      simp only [List.mem_cons, ih]
      tauto

theorem mem_sortCGDesc (x : CG) :
    ∀ l : List CG, x ∈ sortCGDesc l → x ∈ l := by
  intro l
  induction l with
  | nil => intro hx; exact hx
  | cons c cs ih =>
    intro hx
    unfold sortCGDesc at hx
    rcases (mem_insertCGDesc c x (sortCGDesc cs)).mp hx with hxc | hxs
    · exact hxc ▸ List.mem_cons_self c cs
    · exact List.mem_cons_of_mem c (ih hxs)

/-- The writer pipeline state produced inside `convertTableFileToArchive`
(abbreviation used to state counting facts about the conversion). -/
def convertW (idx : List H) (cgList : List CG) (sched : List H → List H) :
    AWriter × Nat × Nat :=
  writeDataToArchive (AWriter.empty.writeByteSpan SpanW.defDict).2 idx.dedup
    (sortCGDesc cgList) (AWriter.empty.writeByteSpan SpanW.defDict).1 sched

/-- C5: when every materialized group draws its chunks from the source, the
archive's chunk count (grouped plus ungrouped, the count recorded in the
new table spec) equals the number of distinct index entries, hence is at
most `idx.chunkCount()`, with equality exactly when the index has no
duplicate entries; the duplicate-count diagnostic is emitted exactly when
duplicates were dropped. -/
theorem dedup_preserving_count (idx : List H) (cgList : List CG)
    (sched : List H → List H) (t : Nat) (origin : H)
    (hsub : ∀ cg ∈ cgList, cg.materialized → ∀ x ∈ cg.chks, x ∈ idx)
    (h25 : 25 ≤ idx.length) :
    ∃ name cnt dup,
      convertTableFileToArchive idx cgList sched t origin
          = Except.ok (name, cnt, dup) ∧
      cnt = idx.dedup.length ∧
      cnt ≤ idx.length ∧
      (cnt = idx.length ↔ idx.Nodup) ∧
      dup = (if cnt ≠ idx.length then some (idx.length - cnt) else none) := by
  have hlen : (gatherSamples idx).length = min idx.length 1000 := by
    simp [gatherSamples, List.length_take]
  have hcond : 25 ≤ (gatherSamples idx).length := by omega
  have hsub2 : ∀ cg ∈ sortCGDesc cgList, cg.materialized →
      ∀ x ∈ cg.chks, x ∈ idx.dedup := by
    intro cg hcg hm x hx
    exact List.mem_dedup.mpr (hsub cg (mem_sortCGDesc cg cgList hcg) hm x hx)
  have hcnt : (convertW idx cgList sched).2.1 + (convertW idx cgList sched).2.2
      = idx.dedup.length :=
    writeData_count idx.dedup (List.nodup_dedup idx) (sortCGDesc cgList)
      (AWriter.empty.writeByteSpan SpanW.defDict).1 sched
      (AWriter.empty.writeByteSpan SpanW.defDict).2 rfl hsub2
  have heq : convertTableFileToArchive idx cgList sched t origin
      = Except.ok (getName (convertW idx cgList sched).1 t origin,
          (convertW idx cgList sched).2.1 + (convertW idx cgList sched).2.2,
          if (convertW idx cgList sched).2.1 + (convertW idx cgList sched).2.2
              ≠ idx.length
            then some (idx.length - ((convertW idx cgList sched).2.1
              + (convertW idx cgList sched).2.2))
            else none) := by
    simp only [convertTableFileToArchive, convertW]
    rw [if_pos hcond]
  have hle : (convertW idx cgList sched).2.1 + (convertW idx cgList sched).2.2
      ≤ idx.length := by
    rw [hcnt]
    exact (List.dedup_sublist idx).length_le
  have hiff : ((convertW idx cgList sched).2.1 + (convertW idx cgList sched).2.2
      = idx.length ↔ idx.Nodup) := by
    rw [hcnt]
    constructor
    · intro hl
      have := (List.dedup_sublist idx).eq_of_length hl
      exact List.dedup_eq_self.mp this
    · intro hnd
      rw [List.dedup_eq_self.mpr hnd]
  exact ⟨_, _, _, heq, hcnt, hle, hiff, rfl⟩

/-- Closed instance of `dedup_preserving_count`: a 26-entry index with one
duplicate entry and no chunk groups. -/
theorem dedup_preserving_count_witness :
    ∃ name cnt dup,
      convertTableFileToArchive (1 :: List.range 25) [] (fun l => l) 0 0
          = Except.ok (name, cnt, dup) ∧
      cnt = (1 :: List.range 25).dedup.length ∧
      cnt ≤ (1 :: List.range 25).length ∧
      (cnt = (1 :: List.range 25).length ↔ (1 :: List.range 25).Nodup) ∧
      dup = (if cnt ≠ (1 :: List.range 25).length
        then some ((1 :: List.range 25).length - cnt) else none) :=
  dedup_preserving_count (1 :: List.range 25) [] (fun l => l) 0 0
    (by intro cg hcg; exact absurd hcg (List.not_mem_nil cg)) (by decide)

/-! ### Archive address determinism -/

theorem convert_ok_shape (idx : List H) (cgList : List CG)
    (sched : List H → List H) (t : Nat) (origin : H) (h25 : 25 ≤ idx.length) :
    convertTableFileToArchive idx cgList sched t origin
      = Except.ok (getName (convertW idx cgList sched).1 t origin,
          (convertW idx cgList sched).2.1 + (convertW idx cgList sched).2.2,
          if (convertW idx cgList sched).2.1 + (convertW idx cgList sched).2.2
              ≠ idx.length
            then some (idx.length - ((convertW idx cgList sched).2.1
              + (convertW idx cgList sched).2.2))
            else none) := by
  have hlen : (gatherSamples idx).length = min idx.length 1000 := by
    simp [gatherSamples, List.length_take]
  have hcond : 25 ≤ (gatherSamples idx).length := by omega
  simp only [convertTableFileToArchive, convertW]
  rw [if_pos hcond]

/-- C9 (amended): the archive build is a deterministic function of the
source index, the relations, the arrival order of the parallel ungrouped
pass, and the clock: two runs with equal processing order and equal clock
produce equal results; and with equal order but different clocks the
archive names differ, because the conversion timestamp is part of the
digested metadata. -/
theorem archive_address_determinism :
    (∀ (idx : List H) (cgList : List CG) (sched1 sched2 : List H → List H)
        (t1 t2 : Nat) (origin : H),
      sched1 = sched2 → t1 = t2 →
      convertTableFileToArchive idx cgList sched1 t1 origin
        = convertTableFileToArchive idx cgList sched2 t2 origin) ∧
    (∀ (idx : List H) (cgList : List CG) (sched : List H → List H)
        (t1 t2 : Nat) (origin : H),
      t1 ≠ t2 → 25 ≤ idx.length →
      ∀ n1 c1 d1 n2 c2 d2,
        convertTableFileToArchive idx cgList sched t1 origin
            = Except.ok (n1, c1, d1) →
        convertTableFileToArchive idx cgList sched t2 origin
            = Except.ok (n2, c2, d2) →
        n1 ≠ n2) := by
  constructor
  · intro idx cgList sched1 sched2 t1 t2 origin hs ht
    subst hs; subst ht; rfl
  · intro idx cgList sched t1 t2 origin hne h25 n1 c1 d1 n2 c2 d2 h1 h2
    rw [convert_ok_shape idx cgList sched t1 origin h25] at h1
    rw [convert_ok_shape idx cgList sched t2 origin h25] at h2
    have e1 : n1 = getName (convertW idx cgList sched).1 t1 origin := by
      have := (Except.ok.inj h1.symm)
      exact congrArg (fun p => p.1) this
    have e2 : n2 = getName (convertW idx cgList sched).1 t2 origin := by
      have := (Except.ok.inj h2.symm)
      exact congrArg (fun p => p.1) this
    intro hnn
    apply hne
    have : (getName (convertW idx cgList sched).1 t1 origin).convertedAt
        = (getName (convertW idx cgList sched).1 t2 origin).convertedAt := by
      rw [← e1, ← e2, hnn]
    exact this

/-- Closed instance of `archive_address_determinism`, applied with equal
orders and clocks (first conjunct) and with clocks 0 and 1 over a 25-chunk
source (second conjunct). -/
theorem archive_address_determinism_witness :
    convertTableFileToArchive (List.range 25) [] (fun l => l) 1 0
        = convertTableFileToArchive (List.range 25) [] (fun l => l) 1 0 ∧
    getName (convertW (List.range 25) [] (fun l => l)).1 0 0
      ≠ getName (convertW (List.range 25) [] (fun l => l)).1 1 0 :=
  ⟨archive_address_determinism.1 (List.range 25) [] (fun l => l) (fun l => l)
      1 1 0 rfl rfl,
   archive_address_determinism.2 (List.range 25) [] (fun l => l) 0 1 0
      (by decide) (by decide) _ _ _ _ _ _
      (convert_ok_shape (List.range 25) [] (fun l => l) 0 0 (by decide))
      (convert_ok_shape (List.range 25) [] (fun l => l) 1 0 (by decide))⟩

/-- The frozen claim is false on the code: with the same source, no
relations, the same (trivially fixed) samples and a fixed clock, two
executions of the build whose parallel ungrouped passes emit chunks in
different orders (both legal arrival orders, being permutations of the
ungrouped set) produce different archive names, while agreeing on the
chunk count and duplicate diagnostic. -/
theorem archive_address_order_counterexample :
    ((convertTableFileToArchive (List.range 25) [] (fun l => l) 0 0).toOption.map
        (fun r => r.1)
      ≠ (convertTableFileToArchive (List.range 25) [] (fun l => l.reverse) 0 0).toOption.map
        (fun r => r.1)) ∧
    ((convertTableFileToArchive (List.range 25) [] (fun l => l) 0 0).toOption.map
        (fun r => r.2)
      = (convertTableFileToArchive (List.range 25) [] (fun l => l.reverse) 0 0).toOption.map
        (fun r => r.2)) ∧
    ((List.range 25).reverse.Perm (List.range 25)) := by
  refine ⟨by decide, by decide, by decide⟩

/-! ### Union semantics of `ChunkRelations.Add` -/

theorem hsInsert_mem (s : List H) (h x : H) :
    x ∈ hsInsert s h ↔ x ∈ s ∨ x = h := by
  unfold hsInsert
  by_cases hm : h ∈ s
  · rw [if_pos hm]
    constructor
    · exact Or.inl
    · rintro (hx | rfl)
      · exact hx
      · exact hm
  · rw [if_neg hm]
    simp

theorem mergedOf_mem (cr : ChunkRelations) (pa pb : Nat) (x : H) :
    x ∈ mergedOf cr pa pb ↔ x ∈ cr.setOf pa ∨ x ∈ cr.setOf pb := by
  simp only [mergedOf, List.mem_append, List.mem_filter, decide_eq_true_eq]
  constructor
  · rintro (hx | ⟨hx, -⟩)
    · exact Or.inl hx
    · exact Or.inr hx
  · rintro (hx | hx)
    · exact Or.inl hx
    · by_cases ha : x ∈ cr.setOf pa
      · exact Or.inl ha
      · exact Or.inr ⟨hx, by simpa using ha⟩

theorem Add_none_none (cr : ChunkRelations) (a b : H)
    (hA : cr.ptr a = none) (hB : cr.ptr b = none) :
    cr.Add a b =
      { next := cr.next + 1
        setOf := Function.update cr.setOf cr.next (hsInsert (hsInsert [] a) b)
        ptr := Function.update (Function.update cr.ptr a (some cr.next)) b
          (some cr.next)
        dom := hsInsert (hsInsert cr.dom a) b } := by
  unfold ChunkRelations.Add
  rw [hA, hB]

theorem Add_some_none (cr : ChunkRelations) (a b : H) (pa : Nat)
    (hA : cr.ptr a = some pa) (hB : cr.ptr b = none) :
    cr.Add a b =
      { next := cr.next
        setOf := Function.update cr.setOf pa (hsInsert (cr.setOf pa) b)
        ptr := Function.update cr.ptr b (some pa)
        dom := hsInsert cr.dom b } := by
  unfold ChunkRelations.Add
  rw [hA, hB]

theorem Add_none_some (cr : ChunkRelations) (a b : H) (pb : Nat)
    (hA : cr.ptr a = none) (hB : cr.ptr b = some pb) :
    cr.Add a b =
      { next := cr.next
        setOf := Function.update cr.setOf pb (hsInsert (cr.setOf pb) a)
        ptr := Function.update cr.ptr a (some pb)
        dom := hsInsert cr.dom a } := by
  unfold ChunkRelations.Add
  rw [hA, hB]

theorem Add_same (cr : ChunkRelations) (a b : H) (pa : Nat)
    (hA : cr.ptr a = some pa) (hB : cr.ptr b = some pa) :
    cr.Add a b = cr := by
  unfold ChunkRelations.Add
  rw [hA, hB]
  dsimp only
  rw [if_pos rfl]

theorem Add_merge (cr : ChunkRelations) (a b : H) (pa pb : Nat)
    (hA : cr.ptr a = some pa) (hB : cr.ptr b = some pb) (hne : pa ≠ pb) :
    cr.Add a b =
      { next := cr.next + 1
        setOf := Function.update cr.setOf cr.next (mergedOf cr pa pb)
        ptr := fun h => if h ∈ mergedOf cr pa pb then some cr.next else cr.ptr h
        dom := cr.dom ++ (mergedOf cr pa pb).filter (fun h => h ∉ cr.dom) } := by
  unfold ChunkRelations.Add
  rw [hA, hB]
  dsimp only
  rw [if_neg hne]

theorem wf_empty : NewChunkRelations.WF := by
  refine ⟨?_, ?_, ?_, ?_⟩
  · intro h p hp; cases hp
  · intro h p hp; cases hp
  · intro h; simp [NewChunkRelations]
  · intro h p hp; cases hp

theorem wf_liveIds (c : ChunkRelations) (hwf : c.WF) (p : Nat) :
    p ∈ c.liveIds ↔ ∃ h, c.ptr h = some p := by
  simp only [ChunkRelations.liveIds, List.mem_dedup, List.mem_filterMap]
  constructor
  · rintro ⟨h, -, hp⟩; exact ⟨h, hp⟩
  · rintro ⟨h, hp⟩
    exact ⟨h, (hwf.domOk h).mpr (by simp [hp]), hp⟩

/-- Adding preserves the alias invariant: in particular the mapping stays
transitively closed after any sequence of `Add`s. -/
theorem wf_add (cr : ChunkRelations) (a b : H) (hwf : cr.WF) :
    (cr.Add a b).WF := by
  cases hA : cr.ptr a with
  | none =>
    cases hB : cr.ptr b with
    | none =>
      rw [Add_none_none cr a b hA hB]
      refine ⟨?_, ?_, ?_, ?_⟩
      · intro h p hp
        dsimp only at hp ⊢
        rw [Function.update_apply, Function.update_apply] at hp
        rw [Function.update_apply]
        by_cases hb : h = b
        · rw [if_pos hb] at hp
          obtain rfl : cr.next = p := Option.some.inj hp
          rw [if_pos rfl, hsInsert_mem]
          exact Or.inr hb
        · rw [if_neg hb] at hp
          by_cases ha : h = a
          · rw [if_pos ha] at hp
            obtain rfl : cr.next = p := Option.some.inj hp
            rw [if_pos rfl, hsInsert_mem, hsInsert_mem]
            exact Or.inl (Or.inr ha)
          · rw [if_neg ha] at hp
            have hlt := hwf.fresh h p hp
            rw [if_neg (by omega : ¬ p = cr.next)]
            exact hwf.mem h p hp
      · intro h p hp h' hh'
        dsimp only at hp hh' ⊢
        rw [Function.update_apply, Function.update_apply] at hp
        rw [Function.update_apply] at hh'
        rw [Function.update_apply, Function.update_apply]
        by_cases hpn : p = cr.next
        · subst hpn
          rw [if_pos rfl, hsInsert_mem, hsInsert_mem] at hh'
          rcases hh' with (hnil | ha') | hb'
          · exact absurd hnil (List.not_mem_nil h')
          · by_cases hb2 : h' = b
            · rw [if_pos hb2]
            · rw [if_neg hb2, if_pos ha']
          · rw [if_pos hb']
        · split_ifs at hp with h1 h2
          · exact absurd (Option.some.inj hp).symm hpn
          · exact absurd (Option.some.inj hp).symm hpn
          · rw [if_neg hpn] at hh'
            have hptr := hwf.closed h p hp h' hh'
            have hna : ¬ h' = a := fun he => by rw [he, hA] at hptr; cases hptr
            have hnb : ¬ h' = b := fun he => by rw [he, hB] at hptr; cases hptr
            rw [if_neg hnb, if_neg hna]
            exact hptr
      · intro h
        dsimp only
        rw [hsInsert_mem, hsInsert_mem, Function.update_apply, Function.update_apply]
        by_cases hb : h = b
        · simp [hb]
        · by_cases ha : h = a
          · simp [ha, hb]
          · simp [ha, hb, hwf.domOk h]
      · intro h p hp
        dsimp only at hp ⊢
        rw [Function.update_apply, Function.update_apply] at hp
        split_ifs at hp with h1 h2
        · have := Option.some.inj hp; omega
        · have := Option.some.inj hp; omega
        · have := hwf.fresh h p hp; omega
    | some pb =>
      rw [Add_none_some cr a b pb hA hB]
      refine ⟨?_, ?_, ?_, ?_⟩
      · intro h p hp
        dsimp only at hp ⊢
        rw [Function.update_apply] at hp
        rw [Function.update_apply]
        by_cases ha : h = a
        · rw [if_pos ha] at hp
          obtain rfl : pb = p := Option.some.inj hp
          rw [if_pos rfl, hsInsert_mem]
          exact Or.inr ha
        · rw [if_neg ha] at hp
          by_cases hppb : p = pb
          · subst hppb
            rw [if_pos rfl, hsInsert_mem]
            exact Or.inl (hwf.mem h p hp)
          · rw [if_neg hppb]
            exact hwf.mem h p hp
      · intro h p hp h' hh'
        dsimp only at hp hh' ⊢
        rw [Function.update_apply] at hp
        rw [Function.update_apply] at hh'
        rw [Function.update_apply]
        by_cases hppb : p = pb
        · subst hppb
          rw [if_pos rfl, hsInsert_mem] at hh'
          by_cases ha2 : h' = a
          · rw [if_pos ha2]
          · rw [if_neg ha2]
            rcases hh' with hset | ha'
            · exact hwf.closed b p hB h' hset
            · exact absurd ha' ha2
        · split_ifs at hp with h1
          · exact absurd (Option.some.inj hp).symm hppb
          · rw [if_neg hppb] at hh'
            have hptr := hwf.closed h p hp h' hh'
            have hna : ¬ h' = a := fun he => by rw [he, hA] at hptr; cases hptr
            rw [if_neg hna]
            exact hptr
      · intro h
        dsimp only
        rw [hsInsert_mem, Function.update_apply]
        by_cases ha : h = a
        · simp [ha]
        · simp [ha, hwf.domOk h]
      · intro h p hp
        dsimp only at hp
        rw [Function.update_apply] at hp
        split_ifs at hp with h1
        · have hpe : pb = p := Option.some.inj hp
          exact hpe ▸ hwf.fresh b pb hB
        · exact hwf.fresh h p hp
  | some pa =>
    cases hB : cr.ptr b with
    | none =>
      rw [Add_some_none cr a b pa hA hB]
      refine ⟨?_, ?_, ?_, ?_⟩
      · intro h p hp
        dsimp only at hp ⊢
        rw [Function.update_apply] at hp
        rw [Function.update_apply]
        by_cases hb : h = b
        · rw [if_pos hb] at hp
          obtain rfl : pa = p := Option.some.inj hp
          rw [if_pos rfl, hsInsert_mem]
          exact Or.inr hb
        · rw [if_neg hb] at hp
          by_cases hppa : p = pa
          · subst hppa
            rw [if_pos rfl, hsInsert_mem]
            exact Or.inl (hwf.mem h p hp)
          · rw [if_neg hppa]
            exact hwf.mem h p hp
      · intro h p hp h' hh'
        dsimp only at hp hh' ⊢
        rw [Function.update_apply] at hp
        rw [Function.update_apply] at hh'
        rw [Function.update_apply]
        by_cases hppa : p = pa
        · subst hppa
          rw [if_pos rfl, hsInsert_mem] at hh'
          by_cases hb2 : h' = b
          · rw [if_pos hb2]
          · rw [if_neg hb2]
            rcases hh' with hset | hb'
            · exact hwf.closed a p hA h' hset
            · exact absurd hb' hb2
        · split_ifs at hp with h1
          · exact absurd (Option.some.inj hp).symm hppa
          · rw [if_neg hppa] at hh'
            have hptr := hwf.closed h p hp h' hh'
            have hnb : ¬ h' = b := fun he => by rw [he, hB] at hptr; cases hptr
            rw [if_neg hnb]
            exact hptr
      · intro h
        dsimp only
        rw [hsInsert_mem, Function.update_apply]
        by_cases hb : h = b
        · simp [hb]
        · simp [hb, hwf.domOk h]
      · intro h p hp
        dsimp only at hp
        rw [Function.update_apply] at hp
        split_ifs at hp with h1
        · have hpe : pa = p := Option.some.inj hp
          exact hpe ▸ hwf.fresh a pa hA
        · exact hwf.fresh h p hp
    | some pb =>
      by_cases hpp : pa = pb
      · subst hpp
        rw [Add_same cr a b pa hA hB]
        exact hwf
      · rw [Add_merge cr a b pa pb hA hB hpp]
        refine ⟨?_, ?_, ?_, ?_⟩
        · intro h p hp
          dsimp only at hp ⊢
          rw [Function.update_apply]
          split_ifs at hp with hm
          · obtain rfl : cr.next = p := Option.some.inj hp
            rw [if_pos rfl]
            exact hm
          · have hlt := hwf.fresh h p hp
            rw [if_neg (by omega : ¬ p = cr.next)]
            exact hwf.mem h p hp
        · intro h p hp h' hh'
          dsimp only at hp hh' ⊢
          rw [Function.update_apply] at hh'
          split_ifs at hp with hm
          · obtain rfl : cr.next = p := Option.some.inj hp
            rw [if_pos rfl] at hh'
            rw [if_pos hh']
          · have hlt := hwf.fresh h p hp
            rw [if_neg (by omega : ¬ p = cr.next)] at hh'
            have hptr := hwf.closed h p hp h' hh'
            have hnm : h' ∉ mergedOf cr pa pb := by
              intro hmem
              rcases (mergedOf_mem cr pa pb h').mp hmem with hpa' | hpb'
              · have hpeq : p = pa :=
                  Option.some.inj (hptr.symm.trans (hwf.closed a pa hA h' hpa'))
                subst hpeq
                exact hm ((mergedOf_mem cr p pb h).mpr (Or.inl (hwf.mem h p hp)))
              · have hpeq : p = pb :=
                  Option.some.inj (hptr.symm.trans (hwf.closed b pb hB h' hpb'))
                subst hpeq
                exact hm ((mergedOf_mem cr pa p h).mpr (Or.inr (hwf.mem h p hp)))
            rw [if_neg hnm]
            exact hptr
        · intro h
          dsimp only
          by_cases hm : h ∈ mergedOf cr pa pb
          · rw [if_pos hm]
            simp only [List.mem_append, List.mem_filter, decide_eq_true_eq,
              Option.isSome_some, iff_true]
            by_cases hd : h ∈ cr.dom
            · exact Or.inl hd
            · exact Or.inr ⟨hm, hd⟩
          · rw [if_neg hm]
            simp only [List.mem_append, List.mem_filter, decide_eq_true_eq]
            constructor
            · rintro (hd | ⟨hmm, -⟩)
              · exact (hwf.domOk h).mp hd
              · exact absurd hmm hm
            · intro hs
              exact Or.inl ((hwf.domOk h).mpr hs)
        · intro h p hp
          dsimp only at hp ⊢
          split_ifs at hp with hm
          · have := Option.some.inj hp; omega
          · have := hwf.fresh h p hp; omega

/-- C6: union semantics of `ChunkRelations.Add`: the empty relations are
well-formed and `Add` preserves well-formedness (so the mapping is
transitively closed after any sequence of `Add`s); a pair of unknown hashes
allocates a fresh group `{a, b}` and touches no other key; with exactly one
hash known the other is inserted into the existing group; with both known
in the same group nothing changes; with both known in different groups all
members of both groups are repointed to one freshly allocated merged set;
and `groups()` returns the underlying set of each live allocation id
exactly once, deduplicated by id (set identity, not content). -/
theorem chunkRelations_add_union (cr : ChunkRelations) (a b : H) (hwf : cr.WF) :
    NewChunkRelations.WF ∧
    (cr.Add a b).WF ∧
    (cr.ptr a = none → cr.ptr b = none →
      (cr.Add a b).ptr a = some cr.next ∧ (cr.Add a b).ptr b = some cr.next ∧
      (∀ x, x ∈ (cr.Add a b).setOf cr.next ↔ (x = a ∨ x = b)) ∧
      (∀ h, h ≠ a → h ≠ b → (cr.Add a b).ptr h = cr.ptr h)) ∧
    (∀ pa, cr.ptr a = some pa → cr.ptr b = none →
      (cr.Add a b).ptr b = some pa ∧
      (∀ x, x ∈ (cr.Add a b).setOf pa ↔ (x ∈ cr.setOf pa ∨ x = b)) ∧
      (∀ h, h ≠ b → (cr.Add a b).ptr h = cr.ptr h)) ∧
    (∀ pb, cr.ptr a = none → cr.ptr b = some pb →
      (cr.Add a b).ptr a = some pb ∧
      (∀ x, x ∈ (cr.Add a b).setOf pb ↔ (x ∈ cr.setOf pb ∨ x = a)) ∧
      (∀ h, h ≠ a → (cr.Add a b).ptr h = cr.ptr h)) ∧
    (∀ pa, cr.ptr a = some pa → cr.ptr b = some pa → cr.Add a b = cr) ∧
    (∀ pa pb, cr.ptr a = some pa → cr.ptr b = some pb → pa ≠ pb →
      (∀ x, x ∈ cr.setOf pa ∨ x ∈ cr.setOf pb →
        (cr.Add a b).ptr x = some cr.next) ∧
      (∀ x, x ∈ (cr.Add a b).setOf cr.next ↔
        (x ∈ cr.setOf pa ∨ x ∈ cr.setOf pb))) ∧
    ((cr.Add a b).liveIds.Nodup ∧
      (cr.Add a b).groups = (cr.Add a b).liveIds.map (cr.Add a b).setOf ∧
      (∀ p, p ∈ (cr.Add a b).liveIds ↔ ∃ h, (cr.Add a b).ptr h = some p)) := by
  refine ⟨wf_empty, wf_add cr a b hwf, ?_, ?_, ?_, ?_, ?_, ?_⟩
  · intro hA hB
    rw [Add_none_none cr a b hA hB]
    dsimp only
    refine ⟨?_, ?_, ?_, ?_⟩
    · rw [Function.update_apply, Function.update_apply]
      split_ifs with h1 h2
      · rfl
      · rfl
      · exact absurd rfl h2
    · rw [Function.update_apply, if_pos rfl]
    · intro x
      rw [Function.update_same, hsInsert_mem, hsInsert_mem]
      simp [or_comm]
    · intro h hna hnb
      rw [Function.update_apply, if_neg hnb, Function.update_apply, if_neg hna]
  · intro pa hA hB
    rw [Add_some_none cr a b pa hA hB]
    dsimp only
    refine ⟨Function.update_same b (some pa) cr.ptr, ?_, ?_⟩
    · intro x
      rw [Function.update_same, hsInsert_mem]
    · intro h hnb
      rw [Function.update_apply, if_neg hnb]
  · intro pb hA hB
    rw [Add_none_some cr a b pb hA hB]
    dsimp only
    refine ⟨Function.update_same a (some pb) cr.ptr, ?_, ?_⟩
    · intro x
      rw [Function.update_same, hsInsert_mem]
    · intro h hna
      rw [Function.update_apply, if_neg hna]
  · intro pa hA hB
    exact Add_same cr a b pa hA hB
  · intro pa pb hA hB hne
    rw [Add_merge cr a b pa pb hA hB hne]
    dsimp only
    refine ⟨?_, ?_⟩
    · intro x hx
      rw [if_pos ((mergedOf_mem cr pa pb x).mpr hx)]
    · intro x
      rw [Function.update_same]
      exact mergedOf_mem cr pa pb x
  · have hwf' := wf_add cr a b hwf
    exact ⟨List.nodup_dedup _, rfl, fun p => wf_liveIds _ hwf' p⟩

/-- Closed instance of `chunkRelations_add_union` at the empty relations
with the fresh pair `(1, 2)`: the fresh-pair case and the groups contract,
with the well-formedness hypothesis discharged by `wf_empty`. -/
theorem chunkRelations_add_union_witness :
    (NewChunkRelations.Add 1 2).WF ∧
    ((NewChunkRelations.Add 1 2).ptr 1 = some NewChunkRelations.next ∧
     (NewChunkRelations.Add 1 2).ptr 2 = some NewChunkRelations.next ∧
     (∀ x, x ∈ (NewChunkRelations.Add 1 2).setOf NewChunkRelations.next ↔
        (x = 1 ∨ x = 2)) ∧
     (∀ h, h ≠ 1 → h ≠ 2 →
        (NewChunkRelations.Add 1 2).ptr h = NewChunkRelations.ptr h)) ∧
    (∀ p, p ∈ (NewChunkRelations.Add 1 2).liveIds ↔
      ∃ h, (NewChunkRelations.Add 1 2).ptr h = some p) :=
  ⟨(chunkRelations_add_union NewChunkRelations 1 2 wf_empty).2.1,
   (chunkRelations_add_union NewChunkRelations 1 2 wf_empty).2.2.1 rfl rfl,
   (chunkRelations_add_union NewChunkRelations 1 2 wf_empty).2.2.2.2.2.2.2.2.2⟩

end DoltArchive
